import Mathlib

/-!
Verification development for the d3rlpy trajectory data engine
(Transition/Episode/MDPDataset graph, TransitionMiniBatch builder,
StackedObservation accumulator, online ReplayBuffer, lambda-return
estimator), shallowly embedded in Lean 4.

Observations and actions are abstract types; rewards and terminal flags
are rationals; arrays are lists; the prev/next transition chain is an
index into the owning episode's contiguous arrays.
-/

namespace D3rlpy

variable {α β : Type}

/-- Modelled from the spec: the Transition record (section 3) with fields
observation, action, reward, next_observation, next_action, next_reward
and a 0/1 terminal flag.  The dataset implementation itself is not part of
the provided sources, so it is reconstructed from the specification. -/
structure Transition (α β : Type) where
  observation : α
  action : β
  reward : ℚ
  next_observation : α
  next_action : β
  next_reward : ℚ
  terminal : ℚ
deriving DecidableEq

instance [Inhabited α] [Inhabited β] : Inhabited (Transition α β) :=
  ⟨⟨default, default, 0, default, default, 0, 0⟩⟩

/-- Modelled from the spec: the transition derived from step `i` of the
backing arrays: step `i` as current, step `i+1` as next, terminal flag 1
iff `i` is the second-to-last recorded step (section 4.1). -/
def transitionAt [Inhabited α] [Inhabited β] (obs : List α) (act : List β)
    (rew : List ℚ) (i : ℕ) : Transition α β :=
  ⟨obs.getD i default, act.getD i default, rew.getD i 0,
   obs.getD (i + 1) default, act.getD (i + 1) default, rew.getD (i + 1) 0,
   if i + 2 = obs.length then 1 else 0⟩

/-- Modelled from the spec: the full transition chain of a trajectory of
`N` recorded steps is the `N - 1` transitions at indices `0 .. N-2`. -/
def transitionsOf [Inhabited α] [Inhabited β] (obs : List α) (act : List β)
    (rew : List ℚ) : List (Transition α β) :=
  (List.range (obs.length - 1)).map (transitionAt obs act rew)

/-- Modelled from the spec: an Episode owning its raw arrays together with
the declared action size (section 3).  The implementation is absent from
the sources and reconstructed from the specification. -/
structure Episode (α β : Type) where
  action_size : ℕ
  observations : List α
  actions : List β
  rewards : List ℚ
deriving DecidableEq

/-- Number of recorded steps of the episode. -/
def Episode.numSteps (e : Episode α β) : ℕ := e.observations.length

/-- Modelled from the spec: `size() == N - 1` transitions for `N` recorded
steps. -/
def Episode.size (e : Episode α β) : ℕ := e.numSteps - 1

/-- The `i`-th transition of the episode's chain. -/
def Episode.transition [Inhabited α] [Inhabited β] (e : Episode α β) (i : ℕ) :
    Transition α β :=
  transitionAt e.observations e.actions e.rewards i

/-- The episode's cached transition chain. -/
def Episode.transitions [Inhabited α] [Inhabited β] (e : Episode α β) :
    List (Transition α β) :=
  transitionsOf e.observations e.actions e.rewards

/-- A transition reference: the chain node at `index` inside `episode`;
prev/next chain pointers are integer offsets on the owning episode. -/
structure TransitionRef (α β : Type) where
  episode : Episode α β
  index : ℕ

/-- The episode's chain as a list of transition references, in order. -/
def Episode.refs (e : Episode α β) : List (TransitionRef α β) :=
  (List.range e.size).map (fun i => ⟨e, i⟩)

/-- Modelled from the spec: the frame-stacked observation ending at step
`p`: the `F` most recent observations ending at `p`, the earliest
available observation edge-replicated when fewer than `F` predecessors
exist (section 4.3).  Truncated natural subtraction performs exactly the
edge clamp to index 0. -/
def stackedObservation [Inhabited α] (e : Episode α β) (p F : ℕ) : List α :=
  (List.range F).map (fun j => e.observations.getD (p + 1 + j - F) default)

/-- Result of the n-step forward walk: hops taken, discounted reward sum,
index of the last visited transition. -/
structure WalkResult where
  count : ℕ
  reward : ℚ
  last : ℕ
deriving DecidableEq

/-- Modelled from the spec: starting at transition `p`, walk next pointers
up to `n` hops or until a terminal transition is reached, whichever comes
first, accumulating geometrically discounted next-rewards (section 4.3). -/
def nStepWalk [Inhabited α] [Inhabited β] (e : Episode α β) (γ : ℚ) (p : ℕ) :
    ℕ → WalkResult
  | 0 => ⟨0, 0, p⟩
  | n + 1 =>
    if (e.transition p).terminal = 1 ∨ n = 0 then
      ⟨1, (e.transition p).next_reward, p⟩
    else
      ⟨(nStepWalk e γ (p + 1) n).count + 1,
       (e.transition p).next_reward + γ * (nStepWalk e γ (p + 1) n).reward,
       (nStepWalk e γ (p + 1) n).last⟩

/-- Modelled from the spec: the MiniBatch value object holding parallel
arrays indexed by the same batch index (section 3). -/
structure MiniBatch (α β : Type) where
  observations : List (List α)
  actions : List β
  rewards : List ℚ
  next_observations : List (List α)
  next_actions : List β
  next_rewards : List ℚ
  terminals : List ℚ
  n_steps : List ℕ

/-- Modelled from the spec: the MiniBatch builder (section 4.3): frame
stacking of current and aggregated-next observations, n-step aggregation
of next-reward/next-action/terminal via the forward walk, immediate
first-hop action/reward, input order preserved. -/
def TransitionMiniBatch [Inhabited α] [Inhabited β]
    (ts : List (TransitionRef α β)) (F n : ℕ) (γ : ℚ) : MiniBatch α β :=
  ⟨ts.map (fun t => stackedObservation t.episode t.index F),
   ts.map (fun t => (t.episode.transition t.index).action),
   ts.map (fun t => (t.episode.transition t.index).reward),
   ts.map (fun t =>
     stackedObservation t.episode ((nStepWalk t.episode γ t.index n).last + 1) F),
   ts.map (fun t =>
     (t.episode.transition (nStepWalk t.episode γ t.index n).last).next_action),
   ts.map (fun t => (nStepWalk t.episode γ t.index n).reward),
   ts.map (fun t =>
     (t.episode.transition (nStepWalk t.episode γ t.index n).last).terminal),
   ts.map (fun t => (nStepWalk t.episode γ t.index n).count)⟩

/-- The exponentially weighted combination used by the lambda-return:
`(1-λ) Σ_{i<M-1} λ^i r_i + λ^{M-1} r_{M-1}` computed as a right fold. -/
def lambdaWeightedSum (lam : ℚ) : List ℚ → ℚ
  | [] => 0
  | [r] => r
  | r :: s :: rest => (1 - lam) * r + lam * lambdaWeightedSum lam (s :: rest)

/-- Modelled from the spec: the forward walk of the lambda-return
estimator (section 4.6): from transition `q` to the episode end, emit at
each hop the accumulated discounted return, augmented by the discounted
bootstrap value of the frame-stacked next observation except at the final
reachable hop, where the bootstrap is forced to zero.  `accR` is the
return accumulated so far and `gpow` the current power of `γ`; recursion
is fueled by the episode length. -/
def hopReturns [Inhabited α] [Inhabited β] (e : Episode α β)
    (V : List α → ℚ) (γ : ℚ) (F : ℕ) :
    ℕ → ℕ → ℚ → ℚ → List ℚ
  | 0, _, _, _ => []
  | fuel + 1, q, accR, gpow =>
    if (e.transition q).terminal = 1 then
      [accR + gpow * (e.transition q).next_reward]
    else (accR + gpow * (e.transition q).next_reward +
        γ * gpow * V (stackedObservation e (q + 1) F)) ::
      hopReturns e V γ F fuel (q + 1)
        (accR + gpow * (e.transition q).next_reward) (γ * gpow)

/-- Modelled from the spec: `compute_lambda_return` (section 4.6), the
lambda-weighted combination of the bootstrapped returns emitted along the
walk from transition `p` to the episode end, with external value
predictor `V`. -/
def compute_lambda_return [Inhabited α] [Inhabited β] (e : Episode α β)
    (p : ℕ) (V : List α → ℚ) (γ lam : ℚ) (F : ℕ) : ℚ :=
  lambdaWeightedSum lam (hopReturns e V γ F e.numSteps p 0 1)

/-- The spec's closed-form `R_i` for claim C4: the `i`-step discounted
return from transition `p` augmented by `γ^{i+1}` times the predicted
value of the frame-stacked next observation at hop `i`, with the
bootstrap forced to zero at the final reachable hop.  This definition
follows the specification's words, to be compared with the operational
`compute_lambda_return`. -/
def hopReturnSpec [Inhabited α] (e : Episode α β) (V : List α → ℚ)
    (γ : ℚ) (F : ℕ) (p i : ℕ) : ℚ :=
  (∑ j ∈ Finset.range (i + 1), γ ^ j * e.rewards.getD (p + j + 1) 0) +
    (if p + i + 1 = e.size then 0
     else γ ^ (i + 1) * V (stackedObservation e (p + i + 1) F))

/-- Modelled from the spec: the MDPDataset owning flat step arrays, a
terminal-flag array and the discrete-action flag (sections 3 and 6).
The implementation is absent from the sources and reconstructed from the
specification. -/
structure MDPDataset (α β : Type) where
  observations : List α
  actions : List β
  rewards : List ℚ
  terminals : List ℕ
  discrete_action : Bool
deriving DecidableEq

/-- Pointwise zip of the four parallel step arrays. -/
def zip4 : List α → List β → List ℚ → List ℕ → List (α × β × ℚ × ℕ)
  | a :: as, b :: bs, c :: cs, d :: ds => (a, b, c, d) :: zip4 as bs cs ds
  | _, _, _, _ => []

/-- Modelled from the spec: partition of the flat step sequence at
terminal boundaries — a run of consecutive non-terminal steps followed by
one terminal step forms one episode chunk; a trailing run with no closing
terminal forms no episode (section 3). -/
def splitStepsAux (acc : List (α × β × ℚ × ℕ)) :
    List (α × β × ℚ × ℕ) → List (List (α × β × ℚ × ℕ))
  | [] => []
  | s :: rest =>
    if s.2.2.2 ≠ 0 then (acc ++ [s]) :: splitStepsAux [] rest
    else splitStepsAux (acc ++ [s]) rest

/-- The dataset's flat step sequence. -/
def MDPDataset.steps (d : MDPDataset α β) : List (α × β × ℚ × ℕ) :=
  zip4 d.observations d.actions d.rewards d.terminals

/-- The episode partition of the dataset: chunks of steps split at
terminal boundaries. -/
def MDPDataset.chunks (d : MDPDataset α β) :
    List (List (α × β × ℚ × ℕ)) :=
  splitStepsAux [] d.steps

/-- The episode built from one chunk of steps, with the given action
size. -/
def chunkEpisode (asize : ℕ) (c : List (α × β × ℚ × ℕ)) : Episode α β :=
  ⟨asize, c.map (fun s => s.1), c.map (fun s => s.2.1),
   c.map (fun s => s.2.2.1)⟩

/-- The dataset's episodes, each carrying the supplied action size. -/
def MDPDataset.episodesWith (d : MDPDataset α β) (asize : ℕ) :
    List (Episode α β) :=
  d.chunks.map (chunkEpisode asize)

/-- Modelled from the spec: for discrete actions the action size is
inferred from the data as the greatest action index plus one (pinned by
the dataset tests, which compare against `np.max(actions) + 1`). -/
def discreteActionSize (acts : List ℕ) : ℕ := acts.foldl max 0 + 1

/-- `get_action_size` of a discrete-action dataset: inferred from the
actions array. -/
def MDPDataset.get_action_size (d : MDPDataset α ℕ) : ℕ :=
  discreteActionSize d.actions

/-- The episodes of a discrete-action dataset: each episode receives the
dataset-level inferred action size. -/
def MDPDataset.episodes (d : MDPDataset α ℕ) : List (Episode α ℕ) :=
  d.episodesWith d.get_action_size

/-- Modelled from the spec: `clip_reward(low, high)` clamps the reward
field of every step, leaving the other arrays untouched (section 4.2). -/
def MDPDataset.clip_reward (d : MDPDataset α β) (lo hi : ℚ) :
    MDPDataset α β :=
  ⟨d.observations, d.actions, d.rewards.map (fun r => min hi (max lo r)),
   d.terminals, d.discrete_action⟩

/-- Modelled from the spec: the persisted form — a structured container
holding the four flat arrays plus the discrete-action flag (section 6);
encoding details are out of the spec's scope. -/
structure DatasetContainer (α β : Type) where
  observations : List α
  actions : List β
  rewards : List ℚ
  terminals : List ℕ
  discrete_action : Bool

/-- Modelled from the spec: `dump` writes the dataset's arrays and flag
into the persisted container. -/
def MDPDataset.dump (d : MDPDataset α β) : DatasetContainer α β :=
  ⟨d.observations, d.actions, d.rewards, d.terminals, d.discrete_action⟩

/-- Modelled from the spec: `load` reconstructs a dataset from the
persisted container by the flat-array construction. -/
def DatasetContainer.load (c : DatasetContainer α β) : MDPDataset α β :=
  ⟨c.observations, c.actions, c.rewards, c.terminals, c.discrete_action⟩

/-- Modelled from the spec: the StackedObservation accumulator — a
fixed-capacity ring of the last `n_frames` observations, zero-padded for
never-filled slots (section 4.4).  The buffer list is oldest-first and
always `n_frames` long. -/
structure StackedObservation (α : Type) where
  n_frames : ℕ
  zeroFrame : α
  buffer : List α
deriving DecidableEq

/-- A freshly constructed accumulator: every slot holds the zero frame. -/
def StackedObservation.make (z : α) (n : ℕ) : StackedObservation α :=
  ⟨n, z, List.replicate n z⟩

/-- `append(obs)` pushes the new observation, evicting the oldest. -/
def StackedObservation.append (s : StackedObservation α) (o : α) :
    StackedObservation α :=
  ⟨s.n_frames, s.zeroFrame, s.buffer.drop 1 ++ [o]⟩

/-- `eval()` returns the current concatenation of the ring's frames. -/
def StackedObservation.eval (s : StackedObservation α) : List α := s.buffer

/-- `clear()` resets every slot to zero. -/
def StackedObservation.clear (s : StackedObservation α) :
    StackedObservation α :=
  ⟨s.n_frames, s.zeroFrame, List.replicate s.n_frames s.zeroFrame⟩

/-- Fold of `append` over a list of incoming observations. -/
def StackedObservation.appendMany (s : StackedObservation α) (xs : List α) :
    StackedObservation α :=
  xs.foldl StackedObservation.append s

/-- One operation against the online ReplayBuffer: a per-step append from
the environment loop, or a bulk episode ingestion. -/
inductive BufferOp (α β : Type) where
  | step (o : α) (a : β) (r : ℚ) (t : Bool)
  | episode (e : Episode α β)

/-- Modelled from the spec: the bounded online ReplayBuffer (section 4.5):
a FIFO pool of transitions with hard capacity `maxlen`, plus the arrays of
the in-progress episode being accumulated step by step. -/
structure ReplayBuffer (α β : Type) where
  maxlen : ℕ
  transitions : List (Transition α β)
  prepObs : List α
  prepAct : List β
  prepRew : List ℚ

/-- Admit new transitions at the tail and evict from the oldest end until
the pool holds at most `m` transitions. -/
def pushEvict (m : ℕ) (q new : List (Transition α β)) :
    List (Transition α β) :=
  let q2 := q ++ new
  q2.drop (q2.length - m)

/-- A freshly constructed buffer of capacity `m`. -/
def ReplayBuffer.empty (m : ℕ) : ReplayBuffer α β := ⟨m, [], [], [], []⟩

/-- Modelled from the spec: `append(observation, action, reward,
terminal)` accumulates steps into the in-progress episode; when
`terminal` is true the accumulated steps are finalized into an episode
whose transition chain is admitted, oldest transitions evicted down to
`maxlen` (section 4.5). -/
def ReplayBuffer.append [Inhabited α] [Inhabited β] (b : ReplayBuffer α β)
    (o : α) (a : β) (r : ℚ) (t : Bool) : ReplayBuffer α β :=
  if t then
    ⟨b.maxlen,
     pushEvict b.maxlen b.transitions
       (transitionsOf (b.prepObs ++ [o]) (b.prepAct ++ [a])
         (b.prepRew ++ [r])),
     [], [], []⟩
  else
    ⟨b.maxlen, b.transitions, b.prepObs ++ [o], b.prepAct ++ [a],
     b.prepRew ++ [r]⟩

/-- Modelled from the spec: `append_episode` admits a pre-built episode's
transition chain directly, subject to the same eviction rule. -/
def ReplayBuffer.append_episode [Inhabited α] [Inhabited β]
    (b : ReplayBuffer α β) (e : Episode α β) : ReplayBuffer α β :=
  ⟨b.maxlen, pushEvict b.maxlen b.transitions e.transitions,
   b.prepObs, b.prepAct, b.prepRew⟩

/-- Run a sequence of buffer operations in order. -/
def ReplayBuffer.run [Inhabited α] [Inhabited β] (b : ReplayBuffer α β) :
    List (BufferOp α β) → ReplayBuffer α β
  | [] => b
  | BufferOp.step o a r t :: rest => (b.append o a r t).run rest
  | BufferOp.episode e :: rest => (b.append_episode e).run rest

/-- Modelled from the spec: `sample` draws transitions from the current
pool at the given indices (uniform randomness is external: any list of
in-range indices may be drawn). -/
def ReplayBuffer.sample [Inhabited α] [Inhabited β] (b : ReplayBuffer α β)
    (idx : List ℕ) : List (Transition α β) :=
  idx.map (fun i => b.transitions.getD i default)

/-- Number of transitions a sequence of buffer operations admits into the
pool, given the current length of the in-progress episode: finalizing an
in-progress episode of `L` steps admits `L - 1` transitions, a bulk
episode of `N` recorded steps admits `N - 1`. -/
def opsAdmitted : ℕ → List (BufferOp α β) → ℕ
  | _, [] => 0
  | prepLen, BufferOp.step _ _ _ true :: rest => prepLen + opsAdmitted 0 rest
  | prepLen, BufferOp.step _ _ _ false :: rest =>
    opsAdmitted (prepLen + 1) rest
  | prepLen, BufferOp.episode e :: rest => e.size + opsAdmitted prepLen rest

/-! Concrete inputs used by witnesses and counterexamples. -/

/-- A concrete 5-step episode used by witnesses. -/
def wEp : Episode ℤ ℤ := ⟨2, [10, 11, 12, 13, 14], [0, 1, 0, 1, 0], [5, 6, 7, 8, 9]⟩

/-- A concrete discrete-action dataset used by witnesses. -/
def wdDiscrete : MDPDataset ℤ ℕ :=
  ⟨[1, 2, 3, 4], [1, 0, 2, 1], [0, 0, 0, 0], [0, 1, 0, 1], true⟩

/-- A concrete dataset with out-of-range rewards used by witnesses. -/
def wdClip : MDPDataset ℤ ℤ :=
  ⟨[1, 2], [0, 0], [-5, 7], [0, 1], false⟩

/-- A concrete 25-step episode used for replay-buffer scenarios. -/
def cexEp25 : Episode ℤ ℤ :=
  ⟨0, List.replicate 25 0, List.replicate 25 0, List.replicate 25 0⟩

/-- A concrete 26-step episode used for replay-buffer scenarios. -/
def cexEp26 : Episode ℤ ℤ :=
  ⟨0, List.replicate 26 0, List.replicate 26 0, List.replicate 26 0⟩

/-!  Theorems. -/

section Lemmas

theorem range_map_getD {γ : Type} (f : ℕ → γ) (k p : ℕ) (d : γ)
    (hp : p < k) : ((List.range k).map f).getD p d = f p := by
  rw [List.getD_eq_getElem _ d (by simpa using hp)]
  simp

theorem appendMany_buffer (xs : List α) :
    ∀ s : StackedObservation α, 1 ≤ s.buffer.length →
      (s.appendMany xs).buffer = (s.buffer ++ xs).drop xs.length := by
  induction xs with
  | nil => intro s h; simp [StackedObservation.appendMany]
  | cons x rest ih =>
    intro s h
    have hstep : (s.append x).buffer = (s.buffer ++ [x]).drop 1 := by
      cases hb : s.buffer with
      | nil => rw [hb] at h; simp at h
      | cons y ys => simp [StackedObservation.append, hb]
    have hlen : 1 ≤ (s.append x).buffer.length := by
      rw [hstep]
      simp
      omega
    have hfold : s.appendMany (x :: rest) = (s.append x).appendMany rest := rfl
    rw [hfold, ih _ hlen, hstep]
    have h1 : ((s.buffer ++ [x]).drop 1) ++ rest = (s.buffer ++ x :: rest).drop 1 := by
      rw [List.drop_append_of_le_length h, List.drop_append_of_le_length h]
      simp
    rw [h1, List.drop_drop]
    have h2 : (x :: rest).length = 1 + rest.length := by simp [Nat.add_comm]
    rw [h2]

theorem appendMany_frames (xs : List α) :
    ∀ s : StackedObservation α,
      (s.appendMany xs).n_frames = s.n_frames ∧
      (s.appendMany xs).zeroFrame = s.zeroFrame := by
  induction xs with
  | nil => intro s; exact ⟨rfl, rfl⟩
  | cons x rest ih => intro s; exact ih (s.append x)

end Lemmas

section StackClaims

/-- Claim C9: for a StackedObservation of capacity `n_frames`, after
fewer than `n_frames` appends `eval()` returns the appended observations
preceded by zero frames for the never-filled slots; after at least
`n_frames` appends `eval()` returns exactly the last `n_frames` appended
observations; after `clear()` `eval()` returns all zeros. -/
theorem stacked_observation_spec (z : α) (n : ℕ) (xs : List α)
    (hn : 1 ≤ n) :
    (xs.length < n →
      ((StackedObservation.make z n).appendMany xs).eval =
        List.replicate (n - xs.length) z ++ xs) ∧
    (n ≤ xs.length →
      ((StackedObservation.make z n).appendMany xs).eval =
        xs.drop (xs.length - n)) ∧
    (((StackedObservation.make z n).appendMany xs).clear).eval =
      List.replicate n z := by
  have hbuf : ((StackedObservation.make z n).appendMany xs).buffer =
      (List.replicate n z ++ xs).drop xs.length := by
    apply appendMany_buffer
    simp [StackedObservation.make]
    omega
  refine ⟨?_, ?_, ?_⟩
  · intro hlt
    rw [StackedObservation.eval, hbuf,
      List.drop_append_of_le_length (by simp; omega), List.drop_replicate]
  · intro hge
    rw [StackedObservation.eval, hbuf]
    calc (List.replicate n z ++ xs).drop xs.length
        = (List.replicate n z ++ xs).drop
            ((List.replicate n z).length + (xs.length - n)) := by
          rw [List.length_replicate]
          congr 1
          omega
      _ = xs.drop (xs.length - n) := List.drop_append _
  · obtain ⟨hf, hz⟩ := appendMany_frames xs (StackedObservation.make z n)
    show List.replicate ((StackedObservation.make z n).appendMany xs).n_frames
        ((StackedObservation.make z n).appendMany xs).zeroFrame =
        List.replicate n z
    rw [hf, hz]
    rfl

/-- Witness for C9 at a concrete input. -/
theorem stacked_observation_spec_witness :
    1 ≤ 4 ∧
    (([(5 : ℤ), 6].length < 4 →
      ((StackedObservation.make (0 : ℤ) 4).appendMany [5, 6]).eval =
        List.replicate (4 - [(5 : ℤ), 6].length) 0 ++ [5, 6]) ∧
    (4 ≤ [(5 : ℤ), 6].length →
      ((StackedObservation.make (0 : ℤ) 4).appendMany [5, 6]).eval =
        [(5 : ℤ), 6].drop ([(5 : ℤ), 6].length - 4)) ∧
    (((StackedObservation.make (0 : ℤ) 4).appendMany [5, 6]).clear).eval =
      List.replicate 4 0) :=
  ⟨by decide, stacked_observation_spec (0 : ℤ) 4 [5, 6] (by decide)⟩

end StackClaims

section DatasetClaims

/-- Claim C8: `clip_reward(lo, hi)` with `lo ≤ hi` is idempotent, leaves
every stored reward in `[lo, hi]`, and does not change observations,
actions or terminals. -/
theorem clip_reward_spec (d : MDPDataset α β) (lo hi : ℚ) (h : lo ≤ hi) :
    (d.clip_reward lo hi).clip_reward lo hi = d.clip_reward lo hi ∧
    (∀ r ∈ (d.clip_reward lo hi).rewards, lo ≤ r ∧ r ≤ hi) ∧
    (d.clip_reward lo hi).observations = d.observations ∧
    (d.clip_reward lo hi).actions = d.actions ∧
    (d.clip_reward lo hi).terminals = d.terminals := by
  refine ⟨?_, ?_, rfl, rfl, rfl⟩
  · show (⟨d.observations, d.actions, _, d.terminals, d.discrete_action⟩ :
      MDPDataset α β) = ⟨d.observations, d.actions, _, d.terminals,
      d.discrete_action⟩
    have hrew : ((d.rewards.map (fun r => min hi (max lo r))).map
        (fun r => min hi (max lo r))) =
        d.rewards.map (fun r => min hi (max lo r)) := by
      rw [List.map_map]
      apply List.map_congr_left
      intro r _
      have h1 : lo ≤ min hi (max lo r) := le_min h (le_max_left lo r)
      have h2 : min hi (max lo r) ≤ hi := min_le_left hi (max lo r)
      simp [Function.comp]
      rw [max_eq_right h1, min_eq_right h2]
    rw [MDPDataset.mk.injEq]
    exact ⟨rfl, rfl, hrew, rfl, rfl⟩
  · intro r hr
    obtain ⟨r0, _, hr0⟩ := List.mem_map.mp hr
    subst hr0
    exact ⟨le_min h (le_max_left lo r0), min_le_left hi (max lo r0)⟩

/-- Witness for C8 at a concrete input. -/
theorem clip_reward_spec_witness :
    (-1 : ℚ) ≤ 1 ∧
    ((wdClip.clip_reward (-1) 1).clip_reward (-1) 1 =
        wdClip.clip_reward (-1) 1 ∧
    (∀ r ∈ (wdClip.clip_reward (-1) 1).rewards, (-1 : ℚ) ≤ r ∧ r ≤ 1) ∧
    (wdClip.clip_reward (-1) 1).observations = wdClip.observations ∧
    (wdClip.clip_reward (-1) 1).actions = wdClip.actions ∧
    (wdClip.clip_reward (-1) 1).terminals = wdClip.terminals) :=
  ⟨by norm_num, clip_reward_spec wdClip (-1) 1 (by norm_num)⟩

/-- Claim C3: loading the result of dumping a dataset reproduces the
observations, actions, rewards, terminals arrays and the discrete-action
flag exactly, and yields the same episode partition (same chunk contents,
hence the same episode count and boundaries). -/
theorem dump_load_round_trip (d : MDPDataset α β) :
    (d.dump.load).observations = d.observations ∧
    (d.dump.load).actions = d.actions ∧
    (d.dump.load).rewards = d.rewards ∧
    (d.dump.load).terminals = d.terminals ∧
    (d.dump.load).discrete_action = d.discrete_action ∧
    (d.dump.load).chunks = d.chunks ∧
    (d.dump.load).chunks.length = d.chunks.length :=
  ⟨rfl, rfl, rfl, rfl, rfl, rfl, rfl⟩

end DatasetClaims

section ActionSize

theorem le_foldl_max (l : List ℕ) : ∀ b : ℕ, b ≤ l.foldl max b := by
  induction l with
  | nil => intro b; exact Nat.le_refl b
  | cons x xs ih =>
    intro b
    exact le_trans (Nat.le_max_left b x) (ih (max b x))

theorem mem_le_foldl_max (l : List ℕ) :
    ∀ b : ℕ, ∀ a ∈ l, a ≤ l.foldl max b := by
  induction l with
  | nil => intro b a ha; simp at ha
  | cons x xs ih =>
    intro b a ha
    rcases List.mem_cons.mp ha with h | h
    · subst h
      exact le_trans (Nat.le_max_right b a) (le_foldl_max xs (max b a))
    · exact ih (max b x) a h

theorem foldl_max_mem (l : List ℕ) :
    ∀ b : ℕ, l.foldl max b ∈ l ∨ l.foldl max b = b := by
  induction l with
  | nil => intro b; right; rfl
  | cons x xs ih =>
    intro b
    rcases ih (max b x) with h | h
    · left
      exact List.mem_cons_of_mem x h
    · rcases max_choice b x with hm | hm
      · right
        rw [List.foldl_cons, h, hm]
      · left
        rw [List.foldl_cons, h, hm]
        exact List.mem_cons_self x xs

/-- Claim C10: for a discrete-action dataset, the reported action size is
inferred from the actions array as the greatest action index plus one,
and every episode exported from the dataset reports that same inferred
action size. -/
theorem discrete_action_size_inferred (d : MDPDataset α ℕ)
    (hne : d.actions ≠ []) :
    (d.get_action_size - 1) ∈ d.actions ∧
    (∀ a ∈ d.actions, a < d.get_action_size) ∧
    (∀ ep ∈ d.episodes, ep.action_size = d.get_action_size) := by
  refine ⟨?_, ?_, ?_⟩
  · show (discreteActionSize d.actions - 1) ∈ d.actions
    have hsub : discreteActionSize d.actions - 1 = d.actions.foldl max 0 := rfl
    rw [hsub]
    rcases foldl_max_mem d.actions 0 with h | h
    · exact h
    · cases hl : d.actions with
      | nil => exact absurd hl hne
      | cons a as =>
        rw [hl] at h
        have ha : a ≤ List.foldl max 0 (a :: as) :=
          mem_le_foldl_max (a :: as) 0 a (List.mem_cons_self a as)
        rw [h] at ha
        have ha0 : a = 0 := Nat.le_zero.mp ha
        rw [h, ← ha0]
        exact List.mem_cons_self a as
  · intro a ha
    have := mem_le_foldl_max d.actions 0 a ha
    show a < d.actions.foldl max 0 + 1
    omega
  · intro ep hep
    obtain ⟨c, _, hc⟩ := List.mem_map.mp hep
    rw [← hc]
    rfl

/-- Witness for C10 at a concrete input. -/
theorem discrete_action_size_inferred_witness :
    wdDiscrete.actions ≠ [] ∧
    ((wdDiscrete.get_action_size - 1) ∈ wdDiscrete.actions ∧
    (∀ a ∈ wdDiscrete.actions, a < wdDiscrete.get_action_size) ∧
    (∀ ep ∈ wdDiscrete.episodes, ep.action_size =
      wdDiscrete.get_action_size)) :=
  ⟨by decide, discrete_action_size_inferred wdDiscrete (by decide)⟩

end ActionSize

section BufferClaims

theorem pushEvict_length (m : ℕ) (q new : List (Transition α β)) :
    (pushEvict m q new).length = min m (q.length + new.length) := by
  simp [pushEvict]
  omega

theorem transitionsOf_length [Inhabited α] [Inhabited β] (obs : List α)
    (act : List β) (rew : List ℚ) :
    (transitionsOf obs act rew : List (Transition α β)).length =
      obs.length - 1 := by
  simp [transitionsOf]

theorem run_length [Inhabited α] [Inhabited β] (ops : List (BufferOp α β)) :
    ∀ b : ReplayBuffer α β, b.transitions.length ≤ b.maxlen →
      (b.run ops).transitions.length =
        min b.maxlen (b.transitions.length +
          opsAdmitted b.prepObs.length ops) := by
  induction ops with
  | nil =>
    intro b hb
    simp [ReplayBuffer.run, opsAdmitted]
    omega
  | cons op rest ih =>
    intro b hb
    cases op with
    | step o a r t =>
      cases t with
      | false =>
        have hrun : b.run (BufferOp.step o a r false :: rest) =
            (b.append o a r false).run rest := rfl
        have happ : b.append o a r false =
            ⟨b.maxlen, b.transitions, b.prepObs ++ [o], b.prepAct ++ [a],
             b.prepRew ++ [r]⟩ := rfl
        rw [hrun, happ,
          ih ⟨b.maxlen, b.transitions, b.prepObs ++ [o], b.prepAct ++ [a],
            b.prepRew ++ [r]⟩ hb]
        simp [opsAdmitted]
      | true =>
        have hrun : b.run (BufferOp.step o a r true :: rest) =
            (b.append o a r true).run rest := rfl
        have happ : b.append o a r true =
            ⟨b.maxlen,
             pushEvict b.maxlen b.transitions
               (transitionsOf (b.prepObs ++ [o]) (b.prepAct ++ [a])
                 (b.prepRew ++ [r])),
             [], [], []⟩ := rfl
        rw [hrun, happ,
          ih ⟨b.maxlen,
            pushEvict b.maxlen b.transitions
              (transitionsOf (b.prepObs ++ [o]) (b.prepAct ++ [a])
                (b.prepRew ++ [r])), [], [], []⟩
            (by simp only [pushEvict_length]; omega)]
        simp only [pushEvict_length, transitionsOf_length, opsAdmitted,
          List.length_append, List.length_cons, List.length_nil]
        omega
    | episode e =>
      have hrun : b.run (BufferOp.episode e :: rest) =
          (b.append_episode e).run rest := rfl
      have happ : b.append_episode e =
          ⟨b.maxlen, pushEvict b.maxlen b.transitions e.transitions,
           b.prepObs, b.prepAct, b.prepRew⟩ := rfl
      rw [hrun, happ,
        ih ⟨b.maxlen, pushEvict b.maxlen b.transitions e.transitions,
          b.prepObs, b.prepAct, b.prepRew⟩
          (by simp only [pushEvict_length]; omega)]
      have hsize : (e.transitions).length = e.size := by
        rw [Episode.transitions, transitionsOf_length]
        rfl
      simp only [pushEvict_length, hsize, opsAdmitted]
      omega

/-- Claim C2 (amended): on a buffer constructed with capacity `maxlen`,
after any sequence of `append`/`append_episode` operations the
transition count never exceeds `maxlen`; once the total number of
transitions admitted from completed episodes (an episode of `L` recorded
steps admits `L - 1` transitions) reaches `maxlen`, the length equals
`maxlen` exactly; and sampling at in-range indices returns only
transitions from the currently retained pool. -/
theorem replay_buffer_capacity [Inhabited α] [Inhabited β] (m : ℕ)
    (ops : List (BufferOp α β)) (idx : List ℕ) :
    ((ReplayBuffer.empty m : ReplayBuffer α β).run ops).transitions.length
      ≤ m ∧
    (m ≤ opsAdmitted 0 ops →
      ((ReplayBuffer.empty m : ReplayBuffer α β).run
        ops).transitions.length = m) ∧
    ((∀ i ∈ idx, i <
        ((ReplayBuffer.empty m : ReplayBuffer α β).run
          ops).transitions.length) →
      ∀ x ∈ ((ReplayBuffer.empty m : ReplayBuffer α β).run ops).sample idx,
        x ∈ ((ReplayBuffer.empty m : ReplayBuffer α β).run
          ops).transitions) := by
  have hlen := run_length ops (ReplayBuffer.empty m : ReplayBuffer α β)
    (by simp [ReplayBuffer.empty])
  have hempty :
      (ReplayBuffer.empty m : ReplayBuffer α β).transitions.length = 0 := rfl
  have hprep :
      (ReplayBuffer.empty m : ReplayBuffer α β).prepObs.length = 0 := rfl
  have hm : (ReplayBuffer.empty m : ReplayBuffer α β).maxlen = m := rfl
  rw [hempty, hprep, hm] at hlen
  refine ⟨?_, ?_, ?_⟩
  · rw [hlen]
    omega
  · intro hge
    rw [hlen]
    omega
  · intro hidx x hx
    obtain ⟨i, hi, hxi⟩ := List.mem_map.mp hx
    subst hxi
    have hib := hidx i hi
    rw [List.getD_eq_getElem _ default hib]
    exact List.getElem_mem hib

/-- Witness for the amended C2 at a concrete input: two completed
episodes admitting 24 + 25 = 49 transitions into a buffer of capacity
40 leave exactly 40 transitions. -/
theorem replay_buffer_capacity_witness :
    40 ≤ opsAdmitted 0
      [BufferOp.episode cexEp25, BufferOp.episode cexEp26] ∧
    ((ReplayBuffer.empty 40 : ReplayBuffer ℤ ℤ).run
      [BufferOp.episode cexEp25,
       BufferOp.episode cexEp26]).transitions.length = 40 :=
  ⟨by decide,
   (replay_buffer_capacity 40
     [BufferOp.episode cexEp25, BufferOp.episode cexEp26] []).2.1
     (by decide)⟩

/-- Counterexample to C2 as literally stated: two completed episodes of
25 and 26 recorded steps make the total number of appended steps 51,
which exceeds `maxlen = 50`, yet the buffer then holds 49 transitions,
not exactly 50. -/
theorem replay_buffer_exact_cex :
    cexEp25.numSteps + cexEp26.numSteps = 51 ∧ 50 < 51 ∧
    ((ReplayBuffer.empty 50 : ReplayBuffer ℤ ℤ).run
      [BufferOp.episode cexEp25,
       BufferOp.episode cexEp26]).transitions.length = 49 ∧
    (49 : ℕ) ≠ 50 := by
  refine ⟨by decide, by decide, ?_, by decide⟩
  decide

end BufferClaims

section PartitionClaims

theorem split_length_sum (l : List (α × β × ℚ × ℕ))
    (hf : ∀ s ∈ l, s.2.2.2 = 0 ∨ s.2.2.2 = 1) :
    ∀ acc, (splitStepsAux acc l).length =
      (l.map (fun s => s.2.2.2)).sum := by
  induction l with
  | nil => intro acc; simp [splitStepsAux]
  | cons s rest ih =>
    intro acc
    have hrest : ∀ x ∈ rest, x.2.2.2 = 0 ∨ x.2.2.2 = 1 := by
      intro x hx
      exact hf x (List.mem_cons_of_mem s hx)
    rcases hf s (List.mem_cons_self s rest) with h0 | h1
    · rw [List.map_cons, List.sum_cons, h0]
      have hcond : ¬ s.2.2.2 ≠ 0 := by rw [h0]; simp
      simp only [splitStepsAux, if_neg hcond]
      rw [ih hrest]
      omega
    · rw [List.map_cons, List.sum_cons, h1]
      have hcond : s.2.2.2 ≠ 0 := by rw [h1]; norm_num
      simp only [splitStepsAux, if_pos hcond, List.length_cons]
      rw [ih hrest]
      omega

theorem splitStepsAux_cons (acc : List (α × β × ℚ × ℕ))
    (s : α × β × ℚ × ℕ) (rest : List (α × β × ℚ × ℕ)) :
    splitStepsAux acc (s :: rest) =
      if s.2.2.2 ≠ 0 then (acc ++ [s]) :: splitStepsAux [] rest
      else splitStepsAux (acc ++ [s]) rest := rfl

theorem split_sum_length (l : List (α × β × ℚ × ℕ)) :
    (∃ s, l.getLast? = some s ∧ s.2.2.2 ≠ 0) →
    ∀ acc, ((splitStepsAux acc l).map List.length).sum =
      acc.length + l.length := by
  induction l with
  | nil =>
    rintro ⟨s, hs, _⟩ acc
    simp at hs
  | cons s rest ih =>
    intro hlast acc
    cases rest with
    | nil =>
      obtain ⟨s2, hs2, hflag⟩ := hlast
      have heq : s = s2 := by simpa using hs2
      subst heq
      rw [splitStepsAux_cons, if_pos hflag]
      simp [splitStepsAux]
    | cons r t =>
      have hlast2 : ∃ s2, (r :: t).getLast? = some s2 ∧ s2.2.2.2 ≠ 0 := by
        obtain ⟨s2, hs2, hflag⟩ := hlast
        exact ⟨s2, by rw [← List.getLast?_cons_cons]; exact hs2, hflag⟩
      by_cases hcond : s.2.2.2 ≠ 0
      · rw [splitStepsAux_cons, if_pos hcond, List.map_cons, List.sum_cons,
          ih hlast2 []]
        simp
        omega
      · rw [splitStepsAux_cons, if_neg hcond, ih hlast2 (acc ++ [s])]
        simp
        omega

theorem split_chunk_ne_nil (l : List (α × β × ℚ × ℕ)) :
    ∀ acc, ∀ c ∈ splitStepsAux acc l, c ≠ [] := by
  induction l with
  | nil => intro acc c hc; simp [splitStepsAux] at hc
  | cons s rest ih =>
    intro acc c hc
    by_cases hcond : s.2.2.2 ≠ 0
    · simp only [splitStepsAux, if_pos hcond, List.mem_cons] at hc
      rcases hc with h | h
      · subst h
        simp
      · exact ih [] c h
    · simp only [splitStepsAux, if_neg hcond] at hc
      exact ih (acc ++ [s]) c hc

theorem zip4_map_flag :
    ∀ (o : List α) (a : List β) (r : List ℚ) (t : List ℕ),
      a.length = o.length → r.length = o.length → t.length = o.length →
      (zip4 o a r t).map (fun s => s.2.2.2) = t := by
  intro o
  induction o with
  | nil =>
    intro a r t ha hr ht
    have : t = [] := List.length_eq_zero.mp ht
    subst this
    cases a <;> cases r <;> rfl
  | cons x xs ih =>
    intro a r t ha hr ht
    cases a with
    | nil => simp at ha
    | cons a1 as =>
      cases r with
      | nil => simp at hr
      | cons r1 rs =>
        cases t with
        | nil => simp at ht
        | cons t1 ts =>
          simp only [List.length_cons, Nat.add_right_cancel_iff] at ha hr ht
          show t1 :: (zip4 xs as rs ts).map (fun s => s.2.2.2) = t1 :: ts
          rw [ih as rs ts ha hr ht]

theorem sum_sizes (cs : List (List (α × β × ℚ × ℕ)))
    (h : ∀ c ∈ cs, c ≠ []) :
    (cs.map (fun c => c.length - 1)).sum + cs.length =
      (cs.map List.length).sum := by
  induction cs with
  | nil => simp
  | cons c rest ih =>
    have hc : c ≠ [] := h c (List.mem_cons_self c rest)
    have hlen : 1 ≤ c.length := by
      cases c with
      | nil => exact absurd rfl hc
      | cons y ys => simp
    have hrest : ∀ c2 ∈ rest, c2 ≠ [] := by
      intro c2 hc2
      exact h c2 (List.mem_cons_of_mem c hc2)
    simp only [List.map_cons, List.sum_cons, List.length_cons]
    have := ih hrest
    omega

/-- Claim C7: for a dataset built from flat arrays whose last terminal
flag is 1, the number of episodes equals the sum of the terminals array,
each episode of `N` recorded steps has `N - 1` transitions, and the sum
of all episode sizes equals the total number of steps minus the number
of episodes. -/
theorem dataset_partition_arithmetic [Inhabited α] [Inhabited β]
    (d : MDPDataset α β) (asize : ℕ)
    (ha : d.actions.length = d.observations.length)
    (hr : d.rewards.length = d.observations.length)
    (ht : d.terminals.length = d.observations.length)
    (h01 : ∀ x ∈ d.terminals, x = 0 ∨ x = 1)
    (hlast : d.terminals.getLast? = some 1) :
    (d.episodesWith asize).length = d.terminals.sum ∧
    (∀ ep ∈ d.episodesWith asize,
      ep.size + 1 = ep.numSteps ∧ ep.transitions.length = ep.size) ∧
    ((d.episodesWith asize).map Episode.size).sum =
      d.observations.length - (d.episodesWith asize).length := by
  have hmap : d.steps.map (fun s => s.2.2.2) = d.terminals :=
    zip4_map_flag d.observations d.actions d.rewards d.terminals ha hr ht
  have hflags : ∀ s ∈ d.steps, s.2.2.2 = 0 ∨ s.2.2.2 = 1 := by
    intro s hs
    apply h01
    rw [← hmap]
    exact List.mem_map_of_mem _ hs
  have hsteps_len : d.steps.length = d.observations.length := by
    rw [← List.length_map d.steps (fun s => s.2.2.2), hmap, ht]
  have hcount : (d.episodesWith asize).length = d.terminals.sum := by
    rw [MDPDataset.episodesWith, List.length_map, MDPDataset.chunks,
      split_length_sum d.steps hflags, hmap]
  have hlast2 : ∃ s, d.steps.getLast? = some s ∧ s.2.2.2 ≠ 0 := by
    have hm : (d.steps.map (fun s => s.2.2.2)).getLast? = some 1 := by
      rw [hmap]; exact hlast
    rw [List.getLast?_map] at hm
    obtain ⟨s, hs, hflag⟩ := Option.map_eq_some'.mp hm
    exact ⟨s, hs, by rw [hflag]; norm_num⟩
  refine ⟨hcount, ?_, ?_⟩
  · intro ep hep
    obtain ⟨c, hc, hce⟩ := List.mem_map.mp hep
    have hcn : c ≠ [] := split_chunk_ne_nil d.steps [] c hc
    have hnum : ep.numSteps = c.length := by
      rw [← hce]
      show (c.map (fun s => s.1)).length = c.length
      exact List.length_map c _
    have hone : 1 ≤ c.length := by
      cases c with
      | nil => exact absurd rfl hcn
      | cons y ys => simp
    constructor
    · rw [Episode.size, hnum]
      omega
    · rw [Episode.transitions, transitionsOf_length]
      rfl
  · have hmapsize : (d.episodesWith asize).map Episode.size =
        d.chunks.map (fun c => c.length - 1) := by
      rw [MDPDataset.episodesWith, List.map_map]
      apply List.map_congr_left
      intro c _
      show (c.map (fun s => s.1)).length - 1 = c.length - 1
      rw [List.length_map]
    have hchunks_sum : (d.chunks.map List.length).sum = d.steps.length := by
      have := split_sum_length d.steps hlast2 []
      simpa [MDPDataset.chunks] using this
    have hne := split_chunk_ne_nil d.steps []
    have hsizes := sum_sizes d.chunks hne
    rw [hmapsize]
    rw [hchunks_sum, hsteps_len] at hsizes
    have hcl : (d.episodesWith asize).length = d.chunks.length := by
      rw [MDPDataset.episodesWith, List.length_map]
    rw [hcl]
    omega

/-- Witness for C7 at a concrete input. -/
theorem dataset_partition_arithmetic_witness :
    (wdDiscrete.actions.length = wdDiscrete.observations.length ∧
     wdDiscrete.rewards.length = wdDiscrete.observations.length ∧
     wdDiscrete.terminals.length = wdDiscrete.observations.length ∧
     (∀ x ∈ wdDiscrete.terminals, x = 0 ∨ x = 1) ∧
     wdDiscrete.terminals.getLast? = some 1) ∧
    ((wdDiscrete.episodesWith 3).length = wdDiscrete.terminals.sum ∧
    (∀ ep ∈ wdDiscrete.episodesWith 3,
      ep.size + 1 = ep.numSteps ∧ ep.transitions.length = ep.size) ∧
    ((wdDiscrete.episodesWith 3).map Episode.size).sum =
      wdDiscrete.observations.length - (wdDiscrete.episodesWith 3).length) :=
  ⟨⟨by decide, by decide, by decide, by decide, by decide⟩,
   dataset_partition_arithmetic wdDiscrete 3 (by decide) (by decide)
     (by decide) (by decide) (by decide)⟩

end PartitionClaims

section WalkLemmas

variable [Inhabited α] [Inhabited β]

theorem transition_action (e : Episode α β) (i : ℕ) :
    (e.transition i).action = e.actions.getD i default := rfl

theorem transition_reward (e : Episode α β) (i : ℕ) :
    (e.transition i).reward = e.rewards.getD i 0 := rfl

theorem transition_next_action (e : Episode α β) (i : ℕ) :
    (e.transition i).next_action = e.actions.getD (i + 1) default := rfl

theorem transition_next_reward (e : Episode α β) (i : ℕ) :
    (e.transition i).next_reward = e.rewards.getD (i + 1) 0 := rfl

theorem transition_terminal (e : Episode α β) (i : ℕ) :
    (e.transition i).terminal =
      if i + 2 = e.observations.length then (1 : ℚ) else 0 := rfl

theorem terminal_iff (e : Episode α β) (i : ℕ) :
    (e.transition i).terminal = 1 ↔ i + 2 = e.observations.length := by
  rw [transition_terminal]
  by_cases h : i + 2 = e.observations.length
  · simp [h]
  · simp [h]

omit [Inhabited α] [Inhabited β] in
theorem size_succ (e : Episode α β) (p : ℕ) (hp : p < e.size) :
    e.size + 1 = e.observations.length := by
  have hs : e.size = e.observations.length - 1 := rfl
  omega

theorem nStepWalk_succ (e : Episode α β) (γ : ℚ) (p n : ℕ) :
    nStepWalk e γ p (n + 1) =
      if (e.transition p).terminal = 1 ∨ n = 0 then
        ⟨1, (e.transition p).next_reward, p⟩
      else
        ⟨(nStepWalk e γ (p + 1) n).count + 1,
         (e.transition p).next_reward + γ * (nStepWalk e γ (p + 1) n).reward,
         (nStepWalk e γ (p + 1) n).last⟩ := rfl

theorem walk_count (e : Episode α β) (γ : ℚ) :
    ∀ n p, p < e.size →
      (nStepWalk e γ p n).count = min n (e.size - p) := by
  intro n
  induction n with
  | zero => intro p hp; simp [nStepWalk]
  | succ n ih =>
    intro p hp
    have hlen := size_succ e p hp
    by_cases hterm : (e.transition p).terminal = 1
    · have h2 := (terminal_iff e p).mp hterm
      rw [nStepWalk_succ, if_pos (Or.inl hterm)]
      show 1 = min (n + 1) (e.size - p)
      omega
    · have h2 : p + 2 ≠ e.observations.length := fun hc =>
        hterm ((terminal_iff e p).mpr hc)
      have hp2 : p + 1 < e.size := by omega
      by_cases hn : n = 0
      · rw [nStepWalk_succ, if_pos (Or.inr hn)]
        show 1 = min (n + 1) (e.size - p)
        omega
      · rw [nStepWalk_succ, if_neg (not_or.mpr ⟨hterm, hn⟩)]
        show (nStepWalk e γ (p + 1) n).count + 1 = min (n + 1) (e.size - p)
        rw [ih (p + 1) hp2]
        omega

theorem walk_last (e : Episode α β) (γ : ℚ) :
    ∀ n p, p < e.size → 1 ≤ n →
      (nStepWalk e γ p n).last + 1 = p + (nStepWalk e γ p n).count := by
  intro n
  induction n with
  | zero => intro p hp hn; omega
  | succ n ih =>
    intro p hp hn
    by_cases hstop : (e.transition p).terminal = 1 ∨ n = 0
    · rw [nStepWalk_succ, if_pos hstop]
    · have hterm : ¬ (e.transition p).terminal = 1 := fun hc => hstop (Or.inl hc)
      have h2 : p + 2 ≠ e.observations.length := fun hc =>
        hterm ((terminal_iff e p).mpr hc)
      have hlen := size_succ e p hp
      have hp2 : p + 1 < e.size := by omega
      have hn2 : 1 ≤ n := by omega
      rw [nStepWalk_succ, if_neg hstop]
      show (nStepWalk e γ (p + 1) n).last + 1 =
        p + ((nStepWalk e γ (p + 1) n).count + 1)
      have := ih (p + 1) hp2 hn2
      omega

theorem walk_reward (e : Episode α β) (γ : ℚ) :
    ∀ n p, p < e.size →
      (nStepWalk e γ p n).reward =
        ∑ j ∈ Finset.range (nStepWalk e γ p n).count,
          γ ^ j * e.rewards.getD (p + j + 1) 0 := by
  intro n
  induction n with
  | zero => intro p hp; simp [nStepWalk]
  | succ n ih =>
    intro p hp
    by_cases hstop : (e.transition p).terminal = 1 ∨ n = 0
    · rw [nStepWalk_succ, if_pos hstop]
      show (e.transition p).next_reward =
        ∑ j ∈ Finset.range 1, γ ^ j * e.rewards.getD (p + j + 1) 0
      rw [transition_next_reward]
      simp
    · have hterm : ¬ (e.transition p).terminal = 1 := fun hc => hstop (Or.inl hc)
      have h2 : p + 2 ≠ e.observations.length := fun hc =>
        hterm ((terminal_iff e p).mpr hc)
      have hlen := size_succ e p hp
      have hp2 : p + 1 < e.size := by omega
      rw [nStepWalk_succ, if_neg hstop]
      show (e.transition p).next_reward +
          γ * (nStepWalk e γ (p + 1) n).reward =
        ∑ j ∈ Finset.range ((nStepWalk e γ (p + 1) n).count + 1),
          γ ^ j * e.rewards.getD (p + j + 1) 0
      rw [Finset.sum_range_succ' (fun j => γ ^ j * e.rewards.getD (p + j + 1) 0)
        (nStepWalk e γ (p + 1) n).count]
      rw [ih (p + 1) hp2, transition_next_reward, Finset.mul_sum]
      have hsum : ∀ j ∈ Finset.range (nStepWalk e γ (p + 1) n).count,
          γ * (γ ^ j * e.rewards.getD (p + 1 + j + 1) 0) =
            γ ^ (j + 1) * e.rewards.getD (p + (j + 1) + 1) 0 := by
        intro j _
        have hidx : p + 1 + j + 1 = p + (j + 1) + 1 := by omega
        rw [hidx, pow_succ]
        ring
      rw [Finset.sum_congr rfl hsum]
      simp
      ring

omit [Inhabited α] [Inhabited β] in
theorem refs_map_getD {γ2 : Type} (e : Episode α β)
    (g : TransitionRef α β → γ2) (p : ℕ) (d : γ2) (hp : p < e.size) :
    ((e.refs.map g)).getD p d = g ⟨e, p⟩ := by
  rw [Episode.refs, List.map_map]
  exact range_map_getD _ _ _ _ hp

end WalkLemmas

section BatchClaims

variable [Inhabited α] [Inhabited β]

/-- Claim C1: in a MiniBatch built with `n_steps = n` from an episode's
transitions, the recorded `n_steps` value at batch index `p` equals
`min n (S - p - 1)` where `S` is the number of recorded steps of the
episode (so `S - p - 1` is the number of transitions remaining from
position `p` to the episode end). -/
theorem minibatch_n_steps_used (e : Episode α β) (F n : ℕ) (γ : ℚ)
    (p : ℕ) (hp : p < e.size) :
    (TransitionMiniBatch e.refs F n γ).n_steps.getD p 0 =
      min n (e.observations.length - p - 1) := by
  show (e.refs.map
    (fun t => (nStepWalk t.episode γ t.index n).count)).getD p 0 = _
  rw [refs_map_getD e _ p 0 hp]
  show (nStepWalk e γ p n).count = _
  rw [walk_count e γ n p hp]
  have hs : e.size = e.observations.length - 1 := rfl
  omega

/-- Witness for C1 at a concrete input. -/
theorem minibatch_n_steps_used_witness :
    1 < wEp.size ∧
    (TransitionMiniBatch wEp.refs 1 3 (1/2)).n_steps.getD 1 0 =
      min 3 (wEp.observations.length - 1 - 1) :=
  ⟨by decide, minibatch_n_steps_used wEp 1 3 (1/2) 1 (by decide)⟩

/-- Claim C6: in a MiniBatch built with `(n_steps, gamma)`, for the input
transition at position `p` with `k = min n_steps (remaining transitions)`
actual hops, the aggregated next-reward is the `γ`-discounted sum of the
`k` hop rewards, the aggregated next-action, next-observation and
terminal come from the step reached after the `k`-th hop, batch arrays
have one entry per input in input order, and `actions[p]`/`rewards[p]`
are the immediate first-hop values independent of `n_steps`. -/
theorem minibatch_n_step_aggregation (e : Episode α β) (F n : ℕ) (γ : ℚ)
    (p : ℕ) (hp : p < e.size) (hn : 1 ≤ n) :
    (TransitionMiniBatch e.refs F n γ).next_rewards.getD p 0 =
      (∑ j ∈ Finset.range (min n (e.size - p)),
        γ ^ j * e.rewards.getD (p + j + 1) 0) ∧
    (TransitionMiniBatch e.refs F n γ).next_actions.getD p default =
      e.actions.getD (p + min n (e.size - p)) default ∧
    (TransitionMiniBatch e.refs F n γ).next_observations.getD p [] =
      stackedObservation e (p + min n (e.size - p)) F ∧
    (TransitionMiniBatch e.refs F n γ).terminals.getD p 0 =
      (if p + min n (e.size - p) = e.size then (1 : ℚ) else 0) ∧
    (TransitionMiniBatch e.refs F n γ).actions.getD p default =
      e.actions.getD p default ∧
    (TransitionMiniBatch e.refs F n γ).rewards.getD p 0 =
      e.rewards.getD p 0 ∧
    (TransitionMiniBatch e.refs F n γ).n_steps.length = e.refs.length := by
  have hcount := walk_count e γ n p hp
  have hlast := walk_last e γ n p hp hn
  refine ⟨?_, ?_, ?_, ?_, ?_, ?_, ?_⟩
  · show (e.refs.map
      (fun t => (nStepWalk t.episode γ t.index n).reward)).getD p 0 = _
    rw [refs_map_getD e _ p 0 hp]
    show (nStepWalk e γ p n).reward = _
    rw [walk_reward e γ n p hp, hcount]
  · show (e.refs.map (fun t =>
      (t.episode.transition
        (nStepWalk t.episode γ t.index n).last).next_action)).getD
          p default = _
    rw [refs_map_getD e _ p default hp]
    show (e.transition (nStepWalk e γ p n).last).next_action = _
    rw [transition_next_action, hlast, hcount]
  · show (e.refs.map (fun t => stackedObservation t.episode
      ((nStepWalk t.episode γ t.index n).last + 1) F)).getD p [] = _
    rw [refs_map_getD e _ p [] hp]
    show stackedObservation e ((nStepWalk e γ p n).last + 1) F = _
    rw [hlast, hcount]
  · show (e.refs.map (fun t =>
      (t.episode.transition
        (nStepWalk t.episode γ t.index n).last).terminal)).getD p 0 = _
    rw [refs_map_getD e _ p 0 hp]
    show (e.transition (nStepWalk e γ p n).last).terminal = _
    rw [transition_terminal]
    have hlen := size_succ e p hp
    rw [hcount] at hlast
    have hcond : ((nStepWalk e γ p n).last + 2 = e.observations.length) ↔
        (p + min n (e.size - p) = e.size) := by omega
    exact if_congr hcond rfl rfl
  · show (e.refs.map
      (fun t => (t.episode.transition t.index).action)).getD p default = _
    rw [refs_map_getD e _ p default hp]
    exact transition_action e p
  · show (e.refs.map
      (fun t => (t.episode.transition t.index).reward)).getD p 0 = _
    rw [refs_map_getD e _ p 0 hp]
    exact transition_reward e p
  · show (e.refs.map
      (fun t => (nStepWalk t.episode γ t.index n).count)).length = _
    exact List.length_map _ _

/-- Witness for C6 at a concrete input. -/
theorem minibatch_n_step_aggregation_witness :
    (1 < wEp.size ∧ 1 ≤ 3) ∧
    ((TransitionMiniBatch wEp.refs 1 3 (1/2)).next_rewards.getD 1 0 =
      (∑ j ∈ Finset.range (min 3 (wEp.size - 1)),
        (1/2 : ℚ) ^ j * wEp.rewards.getD (1 + j + 1) 0) ∧
    (TransitionMiniBatch wEp.refs 1 3 (1/2)).next_actions.getD 1 default =
      wEp.actions.getD (1 + min 3 (wEp.size - 1)) default ∧
    (TransitionMiniBatch wEp.refs 1 3 (1/2)).next_observations.getD 1 [] =
      stackedObservation wEp (1 + min 3 (wEp.size - 1)) 1 ∧
    (TransitionMiniBatch wEp.refs 1 3 (1/2)).terminals.getD 1 0 =
      (if 1 + min 3 (wEp.size - 1) = wEp.size then (1 : ℚ) else 0) ∧
    (TransitionMiniBatch wEp.refs 1 3 (1/2)).actions.getD 1 default =
      wEp.actions.getD 1 default ∧
    (TransitionMiniBatch wEp.refs 1 3 (1/2)).rewards.getD 1 0 =
      wEp.rewards.getD 1 0 ∧
    (TransitionMiniBatch wEp.refs 1 3 (1/2)).n_steps.length =
      wEp.refs.length) :=
  ⟨⟨by decide, by decide⟩,
   minibatch_n_step_aggregation wEp 1 3 (1/2) 1 (by decide) (by decide)⟩

/-- Claim C5: in a MiniBatch built with frame stacking `n_frames = F`,
the stacked observation at position `p` is the frame stack ending at
step `p`; for `p < F - 1` its earliest `F - p - 1` frames all equal the
episode's first observation (edge padding), and for `p ≥ F - 1` it is
the literal window of the last `F` observations ending at `p`. -/
theorem minibatch_frame_stacking (e : Episode α β) (F n : ℕ) (γ : ℚ)
    (p : ℕ) (hp : p < e.size) :
    ((TransitionMiniBatch e.refs F n γ).observations.getD p [] =
      stackedObservation e p F) ∧
    (p + 1 < F →
      (stackedObservation e p F).take (F - (p + 1)) =
        List.replicate (F - (p + 1)) (e.observations.getD 0 default)) ∧
    (F ≤ p + 1 →
      stackedObservation e p F =
        (e.observations.drop (p + 1 - F)).take F) := by
  have hp2 : p + 1 < e.observations.length := by
    have hs : e.size = e.observations.length - 1 := rfl
    omega
  refine ⟨?_, ?_, ?_⟩
  · show (e.refs.map
      (fun t => stackedObservation t.episode t.index F)).getD p [] = _
    rw [refs_map_getD e _ p [] hp]
  · intro hF
    rw [stackedObservation, ← List.map_take, List.take_range,
      Nat.min_eq_left (by omega)]
    rw [List.eq_replicate_iff]
    constructor
    · rw [List.length_map, List.length_range]
    · intro b hb
      obtain ⟨j, hj, hjb⟩ := List.mem_map.mp hb
      have hjr : j < F - (p + 1) := List.mem_range.mp hj
      have hidx : p + 1 + j - F = 0 := by omega
      rw [← hjb, hidx]
  · intro hF
    apply List.ext_getElem
    · rw [stackedObservation, List.length_map, List.length_range,
        List.length_take, List.length_drop]
      omega
    · intro i h1 h2
      have hiF : i < F := by simpa [stackedObservation] using h1
      simp only [stackedObservation, List.getElem_map, List.getElem_range,
        List.getElem_take, List.getElem_drop]
      have hidx : p + 1 + i - F = p + 1 - F + i := by omega
      rw [hidx, List.getD_eq_getElem _ _ (by omega)]

/-- Witness for C5 at a concrete input. -/
theorem minibatch_frame_stacking_witness :
    1 < wEp.size ∧
    (((TransitionMiniBatch wEp.refs 3 1 (1/2)).observations.getD 1 [] =
      stackedObservation wEp 1 3) ∧
    (1 + 1 < 3 →
      (stackedObservation wEp 1 3).take (3 - (1 + 1)) =
        List.replicate (3 - (1 + 1)) (wEp.observations.getD 0 default)) ∧
    (3 ≤ 1 + 1 →
      stackedObservation wEp 1 3 =
        (wEp.observations.drop (1 + 1 - 3)).take 3)) :=
  ⟨by decide, minibatch_frame_stacking wEp 3 1 (1/2) 1 (by decide)⟩

end BatchClaims

section LambdaClaims

variable [Inhabited α] [Inhabited β]

theorem hopReturns_succ (e : Episode α β) (V : List α → ℚ) (γ : ℚ) (F : ℕ)
    (fuel q : ℕ) (accR gpow : ℚ) :
    hopReturns e V γ F (fuel + 1) q accR gpow =
      if (e.transition q).terminal = 1 then
        [accR + gpow * (e.transition q).next_reward]
      else (accR + gpow * (e.transition q).next_reward +
          γ * gpow * V (stackedObservation e (q + 1) F)) ::
        hopReturns e V γ F fuel (q + 1)
          (accR + gpow * (e.transition q).next_reward) (γ * gpow) := rfl

omit [Inhabited β] in
theorem hopReturnSpec_step (e : Episode α β) (V : List α → ℚ) (γ : ℚ)
    (F : ℕ) (q m : ℕ) :
    hopReturnSpec e V γ F q (m + 1) =
      e.rewards.getD (q + 1) 0 + γ * hopReturnSpec e V γ F (q + 1) m := by
  rw [hopReturnSpec, hopReturnSpec]
  rw [Finset.sum_range_succ'
    (fun j => γ ^ j * e.rewards.getD (q + j + 1) 0) (m + 1)]
  rw [mul_add, Finset.mul_sum]
  have hsum : ∀ j ∈ Finset.range (m + 1),
      γ ^ (j + 1) * e.rewards.getD (q + (j + 1) + 1) 0 =
        γ * (γ ^ j * e.rewards.getD (q + 1 + j + 1) 0) := by
    intro j _
    have hidx : q + (j + 1) + 1 = q + 1 + j + 1 := by omega
    rw [hidx, pow_succ]
    ring
  rw [Finset.sum_congr rfl hsum]
  have hboot : (if q + (m + 1) + 1 = e.size then (0 : ℚ)
      else γ ^ (m + 1 + 1) * V (stackedObservation e (q + (m + 1) + 1) F)) =
      γ * (if q + 1 + m + 1 = e.size then 0
      else γ ^ (m + 1) * V (stackedObservation e (q + 1 + m + 1) F)) := by
    have hidx : q + (m + 1) + 1 = q + 1 + m + 1 := by omega
    rw [hidx]
    by_cases hc : q + 1 + m + 1 = e.size
    · rw [if_pos hc, if_pos hc]
      ring
    · rw [if_neg hc, if_neg hc, pow_succ]
      ring
  rw [hboot]
  simp only [pow_zero, one_mul, Nat.add_zero]
  ring

theorem hopReturns_closed (e : Episode α β) (V : List α → ℚ) (γ : ℚ)
    (F : ℕ) :
    ∀ fuel q accR gpow, q < e.size → e.size - q ≤ fuel →
      hopReturns e V γ F fuel q accR gpow =
        (List.range (e.size - q)).map
          (fun m => accR + gpow * hopReturnSpec e V γ F q m) := by
  intro fuel
  induction fuel with
  | zero => intro q accR gpow hq hfuel; omega
  | succ fuel ih =>
    intro q accR gpow hq hfuel
    have hlen := size_succ e q hq
    by_cases hterm : (e.transition q).terminal = 1
    · have h2 := (terminal_iff e q).mp hterm
      have hsq : e.size - q = 1 := by omega
      have hr1 : List.range 1 = [0] := rfl
      rw [hopReturns_succ, if_pos hterm, hsq, hr1, List.map_cons,
        List.map_nil]
      have hspec : hopReturnSpec e V γ F q 0 = e.rewards.getD (q + 1) 0 := by
        rw [hopReturnSpec, if_pos (by omega : q + 0 + 1 = e.size)]
        simp
      rw [hspec, transition_next_reward]
    · have h2 : q + 2 ≠ e.observations.length := fun hc =>
        hterm ((terminal_iff e q).mpr hc)
      have hq2 : q + 1 < e.size := by omega
      have hfuel2 : e.size - (q + 1) ≤ fuel := by omega
      rw [hopReturns_succ, if_neg hterm, ih (q + 1) _ _ hq2 hfuel2]
      have hsq : e.size - q = (e.size - (q + 1)) + 1 := by omega
      rw [hsq, List.range_succ_eq_map, List.map_cons, List.map_map]
      have hspec0 : hopReturnSpec e V γ F q 0 =
          e.rewards.getD (q + 1) 0 +
            γ * V (stackedObservation e (q + 1) F) := by
        rw [hopReturnSpec, if_neg (by omega : ¬ q + 0 + 1 = e.size)]
        simp [Finset.sum_range_one]
      congr 1
      · rw [hspec0, transition_next_reward]
        ring
      · apply List.map_congr_left
        intro m _
        show accR + gpow * (e.transition q).next_reward +
            γ * gpow * hopReturnSpec e V γ F (q + 1) m =
          accR + gpow * hopReturnSpec e V γ F q (Nat.succ m)
        rw [Nat.succ_eq_add_one, hopReturnSpec_step, transition_next_reward]
        ring

theorem lambdaWeightedSum_cons (lam r : ℚ) (l : List ℚ) (h : l ≠ []) :
    lambdaWeightedSum lam (r :: l) =
      (1 - lam) * r + lam * lambdaWeightedSum lam l := by
  cases l with
  | nil => exact absurd rfl h
  | cons s t => rfl

theorem lambdaWeightedSum_closed (lam : ℚ) :
    ∀ l : List ℚ, l ≠ [] →
      lambdaWeightedSum lam l =
        (1 - lam) * (∑ i ∈ Finset.range (l.length - 1),
          lam ^ i * l.getD i 0) +
        lam ^ (l.length - 1) * l.getD (l.length - 1) 0 := by
  intro l
  induction l with
  | nil => intro h; exact absurd rfl h
  | cons r t ih =>
    intro _
    cases t with
    | nil => simp [lambdaWeightedSum]
    | cons s u =>
      rw [lambdaWeightedSum_cons lam r (s :: u) (by simp), ih (by simp)]
      have hlen1 : (r :: s :: u).length - 1 = u.length + 1 := by simp
      have hlen2 : (s :: u).length - 1 = u.length := by simp
      rw [hlen1, hlen2]
      rw [Finset.sum_range_succ'
        (fun i => lam ^ i * (r :: s :: u).getD i 0) (u.length)]
      have hget0 : (r :: s :: u).getD 0 0 = r := rfl
      have hgetS : ∀ i, (r :: s :: u).getD (i + 1) 0 = (s :: u).getD i 0 := by
        intro i
        rfl
      have hsum : ∀ i ∈ Finset.range u.length,
          lam ^ (i + 1) * (r :: s :: u).getD (i + 1) 0 =
            lam * (lam ^ i * (s :: u).getD i 0) := by
        intro i _
        rw [hgetS, pow_succ]
        ring
      rw [Finset.sum_congr rfl hsum, hget0, hgetS u.length]
      have hpull : ∑ x ∈ Finset.range u.length,
          lam * (lam ^ x * (s :: u).getD x 0) =
          lam * ∑ x ∈ Finset.range u.length,
            lam ^ x * (s :: u).getD x 0 :=
        (Finset.mul_sum _ _ _).symm
      rw [hpull]
      ring

omit [Inhabited β] in
theorem spec_map_getD (e : Episode α β) (V : List α → ℚ) (γ : ℚ) (F : ℕ)
    (p M i : ℕ) (hi : i < M) :
    ((List.range M).map
      (fun m => hopReturnSpec e V γ F p m)).getD i 0 =
      hopReturnSpec e V γ F p i :=
  range_map_getD _ M i 0 hi

/-- Claim C4: `compute_lambda_return` from the transition at position `p`
equals the weighted sum `(1-λ) Σ_{i<M-1} λ^i R_i + λ^{M-1} R_{M-1}`,
where `M = size - p` is the number of hops walked to the episode end and
`R_i` (`hopReturnSpec`) is the `i`-step discounted return augmented by
`γ^{i+1} V(stacked next observation at hop i)`, the bootstrap being
forced to zero at the final reachable hop. -/
theorem compute_lambda_return_eq (e : Episode α β) (p : ℕ)
    (V : List α → ℚ) (γ lam : ℚ) (F : ℕ) (hp : p < e.size) :
    compute_lambda_return e p V γ lam F =
      (1 - lam) * (∑ i ∈ Finset.range (e.size - p - 1),
        lam ^ i * hopReturnSpec e V γ F p i) +
      lam ^ (e.size - p - 1) * hopReturnSpec e V γ F p (e.size - p - 1) := by
  have hfuel : e.size - p ≤ e.numSteps := by
    have hs : e.size = e.observations.length - 1 := rfl
    rw [Episode.numSteps]
    omega
  rw [compute_lambda_return,
    hopReturns_closed e V γ F e.numSteps p 0 1 hp hfuel]
  have hmap : (List.range (e.size - p)).map
      (fun m => (0 : ℚ) + 1 * hopReturnSpec e V γ F p m) =
      (List.range (e.size - p)).map
        (fun m => hopReturnSpec e V γ F p m) := by
    apply List.map_congr_left
    intro m _
    ring
  rw [hmap]
  have hne : (List.range (e.size - p)).map
      (fun m => hopReturnSpec e V γ F p m) ≠ [] := by
    intro hnil
    have hl := congrArg List.length hnil
    simp at hl
    omega
  rw [lambdaWeightedSum_closed lam _ hne]
  have hlen : ((List.range (e.size - p)).map
      (fun m => hopReturnSpec e V γ F p m)).length = e.size - p := by
    simp
  rw [hlen]
  have hsum : ∑ i ∈ Finset.range (e.size - p - 1),
      lam ^ i * ((List.range (e.size - p)).map
        (fun m => hopReturnSpec e V γ F p m)).getD i 0 =
      ∑ i ∈ Finset.range (e.size - p - 1),
        lam ^ i * hopReturnSpec e V γ F p i := by
    apply Finset.sum_congr rfl
    intro i hi
    rw [spec_map_getD e V γ F p (e.size - p) i
      (by have := Finset.mem_range.mp hi; omega)]
  rw [hsum, spec_map_getD e V γ F p (e.size - p) (e.size - p - 1) (by omega)]

/-- Witness for C4 at a concrete input. -/
theorem compute_lambda_return_eq_witness :
    2 < wEp.size ∧
    compute_lambda_return wEp 2 (fun l => l.sum) (1/2) (1/3) 1 =
      (1 - 1/3) * (∑ i ∈ Finset.range (wEp.size - 2 - 1),
        (1/3 : ℚ) ^ i * hopReturnSpec wEp (fun l => l.sum) (1/2) 1 2 i) +
      (1/3 : ℚ) ^ (wEp.size - 2 - 1) *
        hopReturnSpec wEp (fun l => l.sum) (1/2) 1 2 (wEp.size - 2 - 1) :=
  ⟨by decide,
   compute_lambda_return_eq wEp 2 (fun l => l.sum) (1/2) (1/3) 1 (by decide)⟩

end LambdaClaims

end D3rlpy
